import Mathlib

/-!
Verification of the map utility library in `src/map.ts`.

A JavaScript `Map` is modelled by its entry list: an insertion-ordered list
of key/value pairs in which keys are unique (`Map` guarantees uniqueness; we
carry it as a `Nodup` hypothesis where a theorem needs it).  `map.entries()`
and `map.keys()` enumerate this list in insertion order, `Map.prototype.set`
overwrites in place or appends, and `new Map(pairs)` replays `set` over the
pairs starting from the empty map.

Asynchronous transforms are modelled by `Except`.  In `transformMapAsync`
the `Array.from` mapper is an `async` function, so a synchronous throw and a
rejected returned promise are indistinguishable to the caller: one invocation
is a single `Except` (`Except.ok`, fulfilled; `Except.error`, rejected for
either reason).  In `allSettledMap` the mapper on line 65 is NOT `async`, so
the two failure modes behave differently and one invocation is an
`Except Err (Except Err Result)`: the outer layer is a synchronous throw
(which escapes `Array.from` itself), the inner layer is the settlement of
the returned value or promise.  `Promise.all` becomes `promiseAll` (fails
iff some element failed, surfacing one element's failure), and
`Promise.allSettled` settles every element into a `PromiseSettledResult`
record and never fails.

Each library function is translated with an explicit result for the state of
its input map object: it returns a pair of its TypeScript return value and
the entry list the input map holds after the call.  The read-only operations
(`transformMap`, `filterMap`, `transformMapAsync`, `allSettledMap`) only ever
invoke `entries()`/`keys()` on the input, so they hand the state back
untouched; `getOrDefault` may invoke `set` on it.
-/

namespace MapTs

variable {Key Value Result Err A B : Type}

/-- Entry list of a JavaScript `Map` object: insertion-ordered key/value
pairs, enumerated by `map.entries()`. -/
abbrev Entries (Key Value : Type) := List (Key × Value)

/-- JavaScript `Map.prototype.has`: membership test on keys. -/
def jsHas [DecidableEq Key] (m : Entries Key Value) (k : Key) : Bool :=
  m.any (fun p => p.1 == k)

/-- JavaScript `Map.prototype.get`: the value stored under the key, or
`none` (for `undefined`) when the key is absent. -/
def jsGet [DecidableEq Key] (m : Entries Key Value) (k : Key) : Option Value :=
  (m.find? (fun p => p.1 == k)).map Prod.snd

/-- JavaScript `Map.prototype.set`: overwrite the value in place when the
key is present, otherwise append the new entry at the end. -/
def jsSet [DecidableEq Key] (m : Entries Key Value) (k : Key) (v : Value) :
    Entries Key Value :=
  if jsHas m k then m.map (fun p => if p.1 == k then (p.1, v) else p)
  else m ++ [(k, v)]

/-- JavaScript `new Map(pairs)`: replay `set` over the pairs, starting from
the empty map. -/
def newMap [DecidableEq Key] (pairs : List (Key × Value)) : Entries Key Value :=
  pairs.foldl (fun acc p => jsSet acc p.1 p.2) []

/-- Lines 6-15 of `map.ts`: `transformMap(map, transform)` builds
`new Map(Array.from(map.entries(), ([key, value]) => [key, transform(value, key)]))`.
The second component is the input map's entry list after the call. -/
def transformMap [DecidableEq Key] (map : Entries Key Value)
    (transform : Value → Key → Result) :
    Entries Key Result × Entries Key Value :=
  (newMap (map.map (fun p => (p.1, transform p.2 p.1))), map)

/-- Lines 31-38 of `map.ts`: `filterMap(map, predicate)` builds
`new Map(Array.from(map.entries()).filter(([key, value]) => predicate(value, key)))`.
The second component is the input map's entry list after the call. -/
def filterMap [DecidableEq Key] (map : Entries Key Value)
    (predicate : Value → Key → Bool) :
    Entries Key Value × Entries Key Value :=
  (newMap (map.filter (fun p => predicate p.2 p.1)), map)

/-- `Promise.all` over an ordered list of already-settled element promises:
succeeds with the list of values when every element succeeded, otherwise
fails with an element's failure reason. -/
def promiseAll : List (Except Err A) → Except Err (List A)
  | [] => .ok []
  | .error e :: _ => .error e
  | .ok a :: rest => (promiseAll rest).map (fun as => a :: as)

/-- Lines 43-54 of `map.ts`: `transformMapAsync(map, transform)` maps every
entry to the promise of `[key, await transform(value, key)]`, joins with
`Promise.all`, and builds `new Map` of the resulting pairs.  The second
component is the input map's entry list after the call. -/
def transformMapAsync [DecidableEq Key] (map : Entries Key Value)
    (transform : Value → Key → Except Err Result) :
    Except Err (Entries Key Result) × Entries Key Value :=
  ((promiseAll (map.map (fun p => (transform p.2 p.1).map (fun r => (p.1, r))))).map
      newMap,
   map)

/-- The invocation list scheduled by the async operations: one transform
invocation per entry, in entry order, all performed before the join. -/
def scheduledInvocations (map : Entries Key Value)
    (transform : Value → Key → Except Err Result) : List (Except Err Result) :=
  map.map (fun p => transform p.2 p.1)

/-- TypeScript `PromiseSettledResult`: the per-element record produced by
`Promise.allSettled`. -/
inductive PromiseSettledResult (Err Result : Type) : Type where
  | fulfilled (value : Result)
  | rejected (reason : Err)
  deriving DecidableEq

/-- How `Promise.allSettled` settles one element promise into its record. -/
def settle : Except Err Result → PromiseSettledResult Err Result
  | .ok v => .fulfilled v
  | .error e => .rejected e

/-- JavaScript `Array.from(xs, mapper)` with a mapper that may throw
synchronously: the mapper runs sequentially over the elements in order, and
the first synchronous throw aborts the whole construction (earlier calls
have already run, later ones never run). -/
def arrayFrom : List A → (A → Except Err B) → Except Err (List B)
  | [], _ => .ok []
  | x :: rest, mapper =>
    match mapper x with
    | .error e => .error e
    | .ok b => (arrayFrom rest mapper).map (fun bs => b :: bs)

/-- Lines 60-73 of `map.ts`, with the input map's state at each of the two
points where the source reads it made explicit: `mapAtSchedule` is the entry
list seen by `Array.from(map.entries(), ...)` on line 65 (before the
`await`), and `mapAtZip` is the entry list seen by the fresh
`Array.from(map.keys())` on line 68 (after the `await`).  The mapper of line
65 is NOT an `async` function, so one invocation of the transform is an
`Except Err (Except Err Result)`: an outer `Except.error` is a synchronous
throw, which escapes `Array.from` before `Promise.allSettled` runs and
rejects the whole (async-function) call; an outer `Except.ok` is the
settlement of the returned value or promise, which `Promise.allSettled`
settles into a record.  `newValues[i]` is JavaScript array indexing, which
yields `undefined` out of range, hence `Option`.  The result map is built by
`result.set(key, value)` from an empty map, i.e. by `newMap`. -/
def allSettledMapLive [DecidableEq Key] (mapAtSchedule mapAtZip : Entries Key Value)
    (transform : Value → Key → Except Err (Except Err Result)) :
    Except Err (Entries Key (Option (PromiseSettledResult Err Result))) :=
  match arrayFrom mapAtSchedule (fun p => transform p.2 p.1) with
  | .error e => .error e
  | .ok elementPromises =>
    let newValues := elementPromises.map settle
    .ok (newMap ((mapAtZip.map Prod.fst).enum.map (fun ik => (ik.2, newValues[ik.1]?))))

/-- Lines 60-73 of `map.ts` under the library's read-only contract: the map
is not mutated while the operation is in flight, so the state read on line 68
equals the state read on line 65.  The second component is the input map's
entry list after the call. -/
def allSettledMap [DecidableEq Key] (map : Entries Key Value)
    (transform : Value → Key → Except Err (Except Err Result)) :
    Except Err (Entries Key (Option (PromiseSettledResult Err Result)))
      × Entries Key Value :=
  (allSettledMapLive map map transform, map)

/-- Modelled from the spec: the key-correspondence rule of 4.4 and the
ordering discipline of 9 require the key-iteration sequence to be captured
once, before scheduling, and that same snapshot — never a fresh re-iteration
of the source map — to be used to zip outcomes back to keys.  So the zip
phase here enumerates `mapAtSchedule` (the pre-scheduling snapshot) and
ignores the live map state `mapAtZip`; every other aspect, including the
scheduling pass and its synchronous-throw behavior, is kept identical to the
implementation so that the comparison isolates the zip discipline. -/
def allSettledMapSnapshot [DecidableEq Key]
    (mapAtSchedule _mapAtZip : Entries Key Value)
    (transform : Value → Key → Except Err (Except Err Result)) :
    Except Err (Entries Key (Option (PromiseSettledResult Err Result))) :=
  match arrayFrom mapAtSchedule (fun p => transform p.2 p.1) with
  | .error e => .error e
  | .ok elementPromises =>
    let newValues := elementPromises.map settle
    .ok (newMap ((mapAtSchedule.map Prod.fst).enum.map (fun ik => (ik.2, newValues[ik.1]?))))

/-- Lines 78-87 of `map.ts`: `getOrDefault(map, key, defaultValue)` inserts
the default when `!map.has(key)`, then returns `map.get(key)!`.  The first
component is the input map's entry list after the call, the second the
returned value (`Option` because `get` can in principle yield `undefined`;
the `!` is TypeScript's non-null assertion, not a runtime check). -/
def getOrDefault [DecidableEq Key] (map : Entries Key Value) (key : Key)
    (defaultValue : Value) : Entries Key Value × Option Value :=
  let map' := if !(jsHas map key) then jsSet map key defaultValue else map
  (map', jsGet map' key)

/-! ### Lemmas about the JavaScript map primitives -/

lemma jsHas_eq_false [DecidableEq Key] {m : Entries Key Value} {k : Key}
    (h : ∀ p ∈ m, p.1 ≠ k) : jsHas m k = false := by
  simp only [jsHas, List.any_eq_false]
  intro p hp
  simpa using h p hp

lemma jsSet_of_not_has [DecidableEq Key] (m : Entries Key Value) (k : Key)
    (v : Value) (h : jsHas m k = false) : jsSet m k v = m ++ [(k, v)] := by
  simp [jsSet, h]

lemma newMap_go [DecidableEq Key] (l : List (Key × Value)) :
    ∀ acc : Entries Key Value, ((acc ++ l).map Prod.fst).Nodup →
      l.foldl (fun a p => jsSet a p.1 p.2) acc = acc ++ l := by
  induction l with
  | nil => intro acc _; simp
  | cons p t ih =>
    intro acc h
    rw [List.map_append] at h
    obtain ⟨h1, h2, hdisj⟩ := List.nodup_append.mp h
    have hmem : p.1 ∈ (p :: t).map Prod.fst := by simp
    have hnot : p.1 ∉ acc.map Prod.fst := fun hin => hdisj hin hmem
    have hk : jsHas acc p.1 = false := by
      apply jsHas_eq_false
      intro q hq hqk
      exact hnot (hqk ▸ List.mem_map_of_mem Prod.fst hq)
    rw [List.foldl_cons, jsSet_of_not_has _ _ _ hk]
    have hre : (acc ++ [(p.1, p.2)]) ++ t = acc ++ p :: t := by simp
    have := ih (acc ++ [(p.1, p.2)]) (by rw [hre, List.map_append]; exact h)
    rw [this, hre]

lemma newMap_of_nodup [DecidableEq Key] (l : List (Key × Value))
    (h : (l.map Prod.fst).Nodup) : newMap l = l := by
  have := newMap_go l [] (by simpa using h)
  simpa [newMap] using this

lemma jsGet_map_entries [DecidableEq Key] (m : Entries Key Value)
    (g : Key × Value → A) (k : Key) :
    jsGet (m.map (fun p => (p.1, g p))) k = (m.find? (fun p => p.1 == k)).map g := by
  induction m with
  | nil => rfl
  | cons p t ih =>
    cases hpk : (p.1 == k) with
    | true => simp [jsGet, List.find?_cons, hpk]
    | false =>
      simp only [jsGet, List.map_cons, List.find?_cons, hpk] at ih ⊢
      exact ih

lemma jsGet_some_find [DecidableEq Key] {m : Entries Key Value} {k : Key}
    {v : Value} (h : jsGet m k = some v) :
    m.find? (fun q => q.1 == k) = some (k, v) := by
  simp only [jsGet, Option.map_eq_some'] at h
  obtain ⟨q, hq, hv⟩ := h
  have hk : q.1 = k := by simpa using List.find?_some hq
  rw [hq]
  cases q
  simp_all

lemma jsGet_map_of_get [DecidableEq Key] {m : Entries Key Value}
    (g : Key × Value → A) {k : Key} {v : Value} (h : jsGet m k = some v) :
    jsGet (m.map (fun p => (p.1, g p))) k = some (g (k, v)) := by
  rw [jsGet_map_entries, jsGet_some_find h]
  rfl

lemma jsHas_of_get_some [DecidableEq Key] {m : Entries Key Value} {k : Key}
    {v : Value} (h : jsGet m k = some v) : jsHas m k = true := by
  have hf := jsGet_some_find h
  simp only [jsHas, List.any_eq_true]
  exact ⟨(k, v), List.mem_of_find?_eq_some hf, by simp⟩

lemma jsGet_append_single [DecidableEq Key] (m : Entries Key Value) (k : Key)
    (v : Value) (h : jsHas m k = false) : jsGet (m ++ [(k, v)]) k = some v := by
  induction m with
  | nil => simp [jsGet]
  | cons p t ih =>
    simp only [jsHas, List.any_cons, Bool.or_eq_false_iff] at h
    obtain ⟨hpk, ht⟩ := h
    simp only [List.cons_append, jsGet, List.find?_cons, hpk]
    exact ih ht

/-! ### Lemmas about the join primitives -/

lemma promiseAll_map_ok (l : List A) :
    promiseAll (l.map Except.ok) = (Except.ok l : Except Err (List A)) := by
  induction l with
  | nil => rfl
  | cons a t ih => simp [promiseAll, ih, Except.map]

lemma promiseAll_error_mem {ps : List (Except Err A)} {e : Err}
    (hmem : Except.error e ∈ ps) :
    ∃ eOut, promiseAll ps = .error eOut ∧ Except.error eOut ∈ ps := by
  induction ps with
  | nil => cases hmem
  | cons p t ih =>
    cases p with
    | error e0 => exact ⟨e0, rfl, List.mem_cons_self _ _⟩
    | ok a =>
      have hmem' : Except.error e ∈ t := by
        rcases List.mem_cons.mp hmem with h | h
        · cases h
        · exact h
      obtain ⟨e', hpa, hm⟩ := ih hmem'
      exact ⟨e', by simp [promiseAll, hpa, Except.map], List.mem_cons_of_mem _ hm⟩

/-! ### The indexed zip of `allSettledMap` -/

lemma enumFrom_index_zip (vals : List B) :
    ∀ (keys : List A) (pre : List B), keys.length = vals.length →
      (keys.enumFrom pre.length).map (fun ik => (ik.2, (pre ++ vals)[ik.1]?)) =
        keys.zip (vals.map some) := by
  induction vals with
  | nil =>
    intro keys pre h
    rw [List.length_nil] at h
    rw [List.eq_nil_of_length_eq_zero h]
    simp
  | cons v vs ih =>
    intro keys pre h
    cases keys with
    | nil => simp at h
    | cons k ks =>
      simp only [List.length_cons] at h
      have hhead : (pre ++ v :: vs)[pre.length]? = some v := by
        rw [List.getElem?_append_right (Nat.le_refl _)]
        simp
      have htail := ih ks (pre ++ [v]) (by omega)
      simp only [List.enumFrom_cons, List.map_cons, List.zip_cons_cons, hhead]
      have hre : pre ++ v :: vs = (pre ++ [v]) ++ vs := by simp
      have hlen : pre.length + 1 = (pre ++ [v]).length := by simp
      rw [hre, hlen]
      exact congrArg (List.cons (k, some v)) htail

lemma enum_index_zip (keys : List A) (vals : List B)
    (h : keys.length = vals.length) :
    keys.enum.map (fun ik => (ik.2, vals[ik.1]?)) = keys.zip (vals.map some) := by
  have := enumFrom_index_zip vals keys [] h
  simpa [List.enum] using this

/-! ### Structural characterizations of the operations -/

lemma map_fst_keyfixed (m : Entries Key Value) (g : Key × Value → A) :
    (m.map (fun p => (p.1, g p))).map Prod.fst = m.map Prod.fst := by
  induction m with
  | nil => rfl
  | cons p t ih => simp only [List.map_cons, ih]

lemma transformMap_fst [DecidableEq Key] (m : Entries Key Value)
    (f : Value → Key → Result) (hn : (m.map Prod.fst).Nodup) :
    (transformMap m f).1 = m.map (fun p => (p.1, f p.2 p.1)) := by
  apply newMap_of_nodup
  rw [map_fst_keyfixed]
  exact hn

lemma filterMap_fst [DecidableEq Key] (m : Entries Key Value)
    (pred : Value → Key → Bool) (hn : (m.map Prod.fst).Nodup) :
    (filterMap m pred).1 = m.filter (fun q => pred q.2 q.1) := by
  apply newMap_of_nodup
  have hsub : List.Sublist ((m.filter (fun q => pred q.2 q.1)).map Prod.fst)
      (m.map Prod.fst) :=
    (List.filter_sublist m).map Prod.fst
  exact List.Nodup.sublist hsub hn

lemma transformMapAsync_fst_ok [DecidableEq Key] (m : Entries Key Value)
    (f : Value → Key → Except Err Result) (g : Value → Key → Result)
    (hf : ∀ p ∈ m, f p.2 p.1 = Except.ok (g p.2 p.1))
    (hn : (m.map Prod.fst).Nodup) :
    (transformMapAsync m f).1 = Except.ok (m.map (fun p => (p.1, g p.2 p.1))) := by
  have hinv : m.map (fun p => (f p.2 p.1).map (fun r => (p.1, r)))
      = (m.map (fun p => (p.1, g p.2 p.1))).map Except.ok := by
    rw [List.map_map]
    apply List.map_congr_left
    intro p hp
    simp [hf p hp, Except.map]
  show (promiseAll _).map newMap = _
  rw [hinv, promiseAll_map_ok]
  show Except.ok (newMap _) = _
  rw [newMap_of_nodup _ (by rw [map_fst_keyfixed]; exact hn)]

lemma arrayFrom_ok (xs : List A) (mapper : A → B) :
    arrayFrom xs (fun a => Except.ok (mapper a))
      = (Except.ok (xs.map mapper) : Except Err (List B)) := by
  induction xs with
  | nil => rfl
  | cons x rest ih => simp [arrayFrom, ih, Except.map]

lemma allSettledMapLive_noThrow [DecidableEq Key] (m : Entries Key Value)
    (g : Value → Key → Except Err Result) (hn : (m.map Prod.fst).Nodup) :
    allSettledMapLive m m (fun v k => Except.ok (g v k)) =
      Except.ok (m.map (fun p => (p.1, some (settle (g p.2 p.1))))) := by
  unfold allSettledMapLive
  rw [arrayFrom_ok m (fun p => g p.2 p.1)]
  dsimp only
  rw [enum_index_zip _ _ (by simp), List.map_map, List.map_map, List.zip_map']
  rw [newMap_of_nodup _ (by rw [map_fst_keyfixed]; exact hn)]
  rfl

/-! ### Claim theorems -/

/-- C5: for every map `M` with unique keys and every total transform `f`,
`transformMap(M, f)` returns a new map whose key sequence equals that of `M`
(same key set, entries in the input's iteration order) and whose value under
every key `k` equals `f(M[k], k)`. -/
theorem transformMap_correct [DecidableEq Key] (m : Entries Key Value)
    (f : Value → Key → Result) (hn : (m.map Prod.fst).Nodup) :
    (transformMap m f).1 = m.map (fun p => (p.1, f p.2 p.1)) ∧
    ((transformMap m f).1).map Prod.fst = m.map Prod.fst ∧
    ∀ k v, jsGet m k = some v → jsGet (transformMap m f).1 k = some (f v k) := by
  have h1 := transformMap_fst m f hn
  refine ⟨h1, by rw [h1, map_fst_keyfixed], ?_⟩
  intro k v hv
  rw [h1]
  exact jsGet_map_of_get (fun p => f p.2 p.1) hv

theorem transformMap_correct_witness :
    (transformMap [(1, 2), (3, 4)] (fun v k => v + k)).1 = [(1, 3), (3, 7)] :=
  ((transformMap_correct [(1, 2), (3, 4)] (fun v k => v + k) (by decide)).1).trans
    (by decide)

/-- C8: for every map `M` with unique keys, `transformMap(M, identity)`
equals `M`: same keys in the same order, same value under every key. -/
theorem transformMap_identity [DecidableEq Key] (m : Entries Key Value)
    (hn : (m.map Prod.fst).Nodup) :
    (transformMap m (fun v _ => v)).1 = m := by
  rw [transformMap_fst m _ hn]
  simp

theorem transformMap_identity_witness :
    (transformMap [(1, 10), (2, 20)] (fun v _ => v)).1 = [(1, 10), (2, 20)] :=
  transformMap_identity [(1, 10), (2, 20)] (by decide)

/-- C6: for every map `M` with unique keys and every predicate `p`,
`filterMap(M, p)` returns exactly the entries of `M` on which the predicate
holds, values unchanged, in their original relative order. -/
theorem filterMap_correct [DecidableEq Key] (m : Entries Key Value)
    (p : Value → Key → Bool) (hn : (m.map Prod.fst).Nodup) :
    (filterMap m p).1 = m.filter (fun q => p q.2 q.1) ∧
    ∀ k v, ((k, v) ∈ (filterMap m p).1 ↔ (k, v) ∈ m ∧ p v k = true) := by
  have h1 := filterMap_fst m p hn
  refine ⟨h1, ?_⟩
  intro k v
  simp [h1, List.mem_filter]

theorem filterMap_correct_witness :
    (filterMap [(1, 1), (2, 2), (3, 3)] (fun v _ => v % 2 == 0)).1 = [(2, 2)] :=
  ((filterMap_correct [(1, 1), (2, 2), (3, 3)] (fun v _ => v % 2 == 0)
    (by decide)).1).trans (by decide)

/-- C3: for every map `M` with unique keys and every transform whose
invocations all succeed (with values given by `g`), `transformMapAsync(M, f)`
resolves to a map with exactly `M`'s key sequence, in the input's iteration
order, whose value under every key `k` is the resolved value of
`f(M[k], k)`. -/
theorem transformMapAsync_success [DecidableEq Key] (m : Entries Key Value)
    (f : Value → Key → Except Err Result) (g : Value → Key → Result)
    (hf : ∀ p ∈ m, f p.2 p.1 = Except.ok (g p.2 p.1))
    (hn : (m.map Prod.fst).Nodup) :
    (transformMapAsync m f).1 = Except.ok (m.map (fun p => (p.1, g p.2 p.1))) ∧
    (m.map (fun p => (p.1, g p.2 p.1))).map Prod.fst = m.map Prod.fst ∧
    ∀ k v, jsGet m k = some v →
      jsGet (m.map (fun p => (p.1, g p.2 p.1))) k = some (g v k) := by
  refine ⟨transformMapAsync_fst_ok m f g hf hn, map_fst_keyfixed m _, ?_⟩
  intro k v hv
  exact jsGet_map_of_get (fun p => g p.2 p.1) hv

theorem transformMapAsync_success_witness :
    (transformMapAsync [(1, 1), (2, 2)]
      (fun v _ => (Except.ok (v * 10) : Except Nat Nat))).1
      = Except.ok [(1, 10), (2, 20)] :=
  ((transformMapAsync_success [(1, 1), (2, 2)]
      (fun v _ => (Except.ok (v * 10) : Except Nat Nat)) (fun v _ => v * 10)
      (fun _ _ => rfl) (by decide)).1).trans rfl

/-- C2: for every map `M` and transform with at least one failing
invocation, `transformMapAsync(M, f)` rejects with some underlying
invocation's failure reason and returns no map at all; moreover one
invocation is scheduled per entry (none is suppressed by another's
failure). -/
theorem transformMapAsync_failFast [DecidableEq Key] (m : Entries Key Value)
    (f : Value → Key → Except Err Result)
    (hfail : ∃ p ∈ m, ∃ e, f p.2 p.1 = Except.error e) :
    (∃ eOut, (transformMapAsync m f).1 = Except.error eOut ∧
        ∃ q ∈ m, f q.2 q.1 = Except.error eOut) ∧
    (∀ out, (transformMapAsync m f).1 ≠ Except.ok out) ∧
    (scheduledInvocations m f).length = m.length := by
  obtain ⟨p, hp, e, he⟩ := hfail
  have hmem : Except.error e ∈ m.map (fun q => (f q.2 q.1).map (fun r => (q.1, r))) := by
    rw [List.mem_map]
    exact ⟨p, hp, by rw [he]; rfl⟩
  obtain ⟨eOut, hAll, hmemOut⟩ := promiseAll_error_mem hmem
  have hres : (transformMapAsync m f).1 = Except.error eOut := by
    show (promiseAll _).map newMap = _
    rw [hAll]
    rfl
  refine ⟨⟨eOut, hres, ?_⟩, ?_, by simp [scheduledInvocations]⟩
  · rw [List.mem_map] at hmemOut
    obtain ⟨q, hq, hqe⟩ := hmemOut
    refine ⟨q, hq, ?_⟩
    cases hfq : f q.2 q.1 with
    | ok r =>
      rw [hfq] at hqe
      exact absurd hqe (by simp [Except.map])
    | error eQ =>
      rw [hfq] at hqe
      have heq : eQ = eOut := by simpa [Except.map] using hqe
      rw [heq]
  · intro out hout
    rw [hres] at hout
    exact Except.noConfusion hout

theorem transformMapAsync_failFast_witness :
    (transformMapAsync [(1, 1), (2, 2)]
      (fun v k => if k == 2 then Except.error 99 else Except.ok (v * 10))).1
      ≠ Except.ok [(1, 10)] :=
  (transformMapAsync_failFast [(1, 1), (2, 2)] _
    ⟨(2, 2), by decide, 99, rfl⟩).2.1 [(1, 10)]

/-- C1, evaluation at the failing input: with map `{1 → 1}` and a transform
that throws synchronously with reason `7`, `allSettledMap` rejects with the
thrown reason instead of resolving to the map `{1 → rejected 7}` that the
claim — and the function's own documentation, "errors don't stop the
iteration" (lines 57-58 of `map.ts`), and spec §7 — requires.  The cause:
the `Array.from` mapper on line 65 is not an `async` function (contrast
line 49), so the throw escapes `Array.from` before `Promise.allSettled`
runs and fails the whole call. -/
theorem allSettledMap_syncThrow_rejects :
    (allSettledMap [(1, 1)]
      (fun _ _ => (Except.error 7 : Except Nat (Except Nat Nat)))).1
      = Except.error 7 := rfl

/-- C4, counterexample: the source's zip phase (line 68 of `map.ts`) is a
fresh enumeration of the live map's keys taken after the join, not the
pre-scheduling snapshot: when the map's keys change between the two passes,
the implemented zip differs from the snapshot zip the claim asserts it
equals. -/
theorem allSettledMap_rezip_counterexample :
    allSettledMapLive [(0, 0)] [(1, 0)]
        (fun v _ => (Except.ok (Except.ok v) : Except Nat (Except Nat Nat))) ≠
      allSettledMapSnapshot [(0, 0)] [(1, 0)]
        (fun v _ => (Except.ok (Except.ok v) : Except Nat (Except Nat Nat))) := by
  intro h
  have h12 :
      (Except.ok [(1, some (PromiseSettledResult.fulfilled 0))]
          : Except Nat (Entries Nat (Option (PromiseSettledResult Nat Nat))))
        = Except.ok [(0, some (PromiseSettledResult.fulfilled 0))] := h
  exact absurd (Except.ok.inj h12) (by decide)

/-- C4, amended: `allSettledMap` zips outcomes to keys using a fresh
enumeration of the source map's keys taken after the join; whenever the key
sequence read at zip time equals the key sequence read at scheduling time —
which the read-only contract guarantees, and which holds in particular for
the unmutated call `allSettledMap` itself — this coincides with the
pre-scheduling snapshot zip. -/
theorem allSettledMap_zip_snapshot_agree [DecidableEq Key]
    (s z : Entries Key Value)
    (f : Value → Key → Except Err (Except Err Result))
    (h : z.map Prod.fst = s.map Prod.fst) :
    allSettledMapLive s z f = allSettledMapSnapshot s z f ∧
    (allSettledMap s f).1 = allSettledMapSnapshot s s f := by
  constructor
  · unfold allSettledMapLive allSettledMapSnapshot
    rw [h]
  · rfl

theorem allSettledMap_zip_snapshot_agree_witness :
    allSettledMapLive [(5, 1)] [(5, 1)]
        (fun v _ => (Except.ok (Except.ok v) : Except Nat (Except Nat Nat))) =
      allSettledMapSnapshot [(5, 1)] [(5, 1)]
        (fun v _ => (Except.ok (Except.ok v) : Except Nat (Except Nat Nat))) :=
  (allSettledMap_zip_snapshot_agree [(5, 1)] [(5, 1)] _ rfl).1

/-- C7: `getOrDefault(M, k, d)` inserts `d` under `k` (one appended entry,
nothing else changed) and returns `d` when `k` is absent; leaves `M`
unchanged and returns the stored value when `k` is present; and in every
call the returned value is the value stored under `k` after the call. -/
theorem getOrDefault_correct [DecidableEq Key] (m : Entries Key Value)
    (k : Key) (d : Value) :
    (jsHas m k = false → getOrDefault m k d = (m ++ [(k, d)], some d)) ∧
    (∀ v, jsGet m k = some v → getOrDefault m k d = (m, some v)) ∧
    (getOrDefault m k d).2 = jsGet (getOrDefault m k d).1 k := by
  refine ⟨?_, ?_, rfl⟩
  · intro h
    simp only [getOrDefault, h, Bool.not_false, if_true, jsSet_of_not_has m k d h,
      jsGet_append_single m k d h]
  · intro v hv
    have hh := jsHas_of_get_some hv
    simp only [getOrDefault, hh, Bool.not_true, Bool.false_eq_true, if_false, hv]

theorem getOrDefault_correct_witness :
    getOrDefault [(1, 5)] 2 9 = ([(1, 5), (2, 9)], some 9) ∧
    getOrDefault [(1, 5)] 1 9 = ([(1, 5)], some 5) :=
  ⟨(getOrDefault_correct [(1, 5)] 2 9).1 (by decide),
   (getOrDefault_correct [(1, 5)] 1 9).2.1 5 (by decide)⟩

/-- C10: `getOrDefault` decides presence by key membership alone (`has`),
never by the stored value: for every map containing the key — in particular
when the stored value is `undefined`/falsy, as in the witness where the
stored value is `none` — no insertion or overwrite happens and the stored
value, not the default, is returned. -/
theorem getOrDefault_presence_by_key [DecidableEq Key] (m : Entries Key Value)
    (k : Key) (d : Value) (h : jsHas m k = true) :
    getOrDefault m k d = (m, jsGet m k) := by
  simp only [getOrDefault, h, Bool.not_true, Bool.false_eq_true, if_false]

theorem getOrDefault_presence_by_key_witness :
    getOrDefault [(1, (none : Option Nat))] 1 (some 5)
      = ([(1, none)], some none) :=
  getOrDefault_presence_by_key [(1, (none : Option Nat))] 1 (some 5) (by decide)

/-- C9: none of `transformMap`, `filterMap`, `transformMapAsync`,
`allSettledMap` mutates its input map: the entry list the input map holds
after each call (the second component of the embedding, which threads the
state of the input map object through the operations the source performs on
it) is exactly the entry list it held before. -/
theorem readonly_ops_no_mutation [DecidableEq Key]
    (m : Entries Key Value) (f : Value → Key → Result) (pr : Value → Key → Bool)
    (g : Value → Key → Except Err Result)
    (gs : Value → Key → Except Err (Except Err Result)) :
    (transformMap m f).2 = m ∧ (filterMap m pr).2 = m ∧
    (transformMapAsync m g).2 = m ∧ (allSettledMap m gs).2 = m :=
  ⟨rfl, rfl, rfl, rfl⟩

end MapTs
